import Mathlib

/-!
# SeqAn `Range` (iterator_range.h): a shallow embedding

`Range<TIterator>` is a non-owning view: a pair of iterators `_begin`, `_end`
over storage owned by somebody else.  The embedding takes the iterators to be
random-access positions (pointers) into one flat store, so that

* an iterator is an `Int` position, `it + pos` is integer addition and
  `_end - _begin` is integer subtraction;
* dereferencing reads or writes the store at that position, and a position
  outside the store has no defined behaviour (`Failure.undefined`);
* a failed `SEQAN_ASSERT_EQ` is `Failure.assertion`;
* the `for` loop of `assign(Range &, Pipe &)` runs on fuel, and running out of
  it is `Failure.fuel`.
-/

namespace Seqan

/-! ## Failures, machine integer types, build configuration -/

/-- Ways in which an operation can fail to produce a result. -/
inductive Failure where
  | assertion
  | undefined
  | fuel
  deriving DecidableEq, Repr

deriving instance DecidableEq for Except

/-- A C++ integer type: its width and signedness.  The standard integer types
(`char` up to `long long`, `size_t`, `ptrdiff_t`) have at least 8 bits; the
unsigned type of one bit is `bool`. -/
structure IntType where
  bits : Nat
  isSigned : Bool
  deriving DecidableEq, Repr

namespace IntType

/-- Number of values of the type, `2 ^ bits`. -/
def modulus (t : IntType) : Int := ((2 ^ t.bits : Nat) : Int)

/-- Conversion `(T)x` of an integer value to the type: modular for the integer
types, and `x != 0` for `bool`. -/
def cast (t : IntType) (x : Int) : Int :=
  if t.isSigned then (x + t.modulus / 2) % t.modulus - t.modulus / 2
  else if t.bits = 1 then (if x = 0 then 0 else 1)
  else x % t.modulus

/-- The value `x` is representable in the type. -/
def Holds (t : IntType) (x : Int) : Prop :=
  if t.isSigned then -(t.modulus / 2) ≤ x ∧ x < t.modulus / 2
  else 0 ≤ x ∧ x < t.modulus

instance (t : IntType) (x : Int) : Decidable (t.Holds x) := by
  unfold Holds; exact inferInstance

/-- The type `MakeUnsigned<T>::Type`. -/
def MakeUnsigned (t : IntType) : IntType := { t with isSigned := false }

end IntType

/-- Build parameters that the header takes from the rest of the library:
whether `SEQAN_ASSERT_*` is compiled in (debug build) and the width of
`Difference<TIterator>::Type`. -/
structure Config where
  enableDebug : Bool
  diffBits : Nat
  deriving DecidableEq, Repr

/-- The type `Difference<TIterator>::Type`: signed, `diffBits` wide. -/
def Config.Difference (cfg : Config) : IntType := ⟨cfg.diffBits, true⟩

/-- Modelled from the spec: the assertion `SEQAN_ASSERT_EQ`, which is not part of
this header.  A debug-time assertion: fatal when the two values differ in a
debug build, silently unchecked in an optimized build. -/
def SEQAN_ASSERT_EQ (cfg : Config) (a b : Int) : Except Failure Unit :=
  if cfg.enableDebug && decide (a ≠ b) then .error .assertion else .ok ()

/-! ## Storage -/

/-- The storage that iterators point into: position `p` holds `s[p]`. -/
abbrev Store (α : Type) := List α

/-- Read through an iterator or reference: the rvalue of `*it`. -/
def Store.read {α : Type} (s : Store α) (p : Int) : Except Failure α :=
  if p < 0 then .error .undefined
  else
    match s[p.toNat]? with
    | some x => .ok x
    | none => .error .undefined

/-- Write through an iterator or reference: the statement `*it = x`. -/
def Store.write {α : Type} (s : Store α) (p : Int) (x : α) : Except Failure (Store α) :=
  if 0 ≤ p ∧ p < (s.length : Int) then .ok (s.set p.toNat x) else .error .undefined

/-- Modelled from the spec: the container capability, which the header only
consumes.  A container exposes a begin/end accessor pair over the storage it
owns; it is described by the position of its first element and its size. -/
structure Container where
  data_begin : Int
  size : Nat
  deriving DecidableEq, Repr

namespace Container

/-- The accessor `begin(cont, Standard())`. -/
def begin (cont : Container) : Int := cont.data_begin

/-- The accessor `end(cont, Standard())`. -/
def end_ (cont : Container) : Int := cont.data_begin + cont.size

/-- The container's storage lies inside the store. -/
def ValidIn {α : Type} (cont : Container) (s : Store α) : Prop :=
  0 ≤ cont.data_begin ∧ cont.data_begin + cont.size ≤ (s.length : Int)

instance {α : Type} (cont : Container) (s : Store α) : Decidable (cont.ValidIn s) := by
  unfold ValidIn; exact inferInstance

/-- The elements of the container, in order. -/
def elems {α : Type} (cont : Container) (s : Store α) : List α :=
  (s.drop cont.data_begin.toNat).take cont.size

end Container

/-! ## class Range -/

/-- The class `Range<TIterator>`: the two stored iterators. -/
structure Range where
  _begin : Int
  _end : Int
  deriving DecidableEq, Repr

namespace Range

/-- The constructor `Range()`: both iterators value-initialised. -/
def empty : Range := { _begin := 0, _end := 0 }

/-- The constructor `Range(TOtherContainer & cont)`. -/
def ofContainer (cont : Container) : Range :=
  { _begin := cont.begin, _end := cont.end_ }

/-- The constructor `Range(TOtherContainer const & cont)`. -/
def ofContainerConst (cont : Container) : Range :=
  { _begin := cont.begin, _end := cont.end_ }

/-- The constructor `Range(TIterator const & begin, TIterator const & end)`. -/
def ofIterators (b e : Int) : Range := { _begin := b, _end := e }

end Range

/-- The function `begin(Range &, Standard)`. -/
def begin (view : Range) : Int := view._begin

/-- The function `begin(Range const &, Standard)`. -/
def beginConst (view : Range) : Int := view._begin

/-- The function `end(Range &, Standard)`. -/
def end_ (view : Range) : Int := view._end

/-- The function `end(Range const &, Standard)`. -/
def endConst (view : Range) : Int := view._end

/-- The function `value(Range &, pos)`: the reference `*(view._begin + pos)`,
that is the position it designates. -/
def value (view : Range) (pos : Int) : Int := view._begin + pos

/-- The function `value(Range const &, pos)`. -/
def valueConst (view : Range) (pos : Int) : Int := view._begin + pos

/-- The function `length(Range const &)`: the iterator difference. -/
def length (view : Range) : Int := view._end - view._begin

/-- The function `resize(Range & me, TSize new_length, Tag<TExpand>)`.  The
argument `new_length` is a value of type `TSize`; `me` is taken by mutable
reference and handed back, together with the store.  The result has type
`Size<Range>::Type`, the unsigned version of the difference type. -/
def resize {α : Type} (cfg : Config) (TSize : IntType) (me : Range) (store : Store α)
    (new_length : Int) : Except Failure (Int × Range × Store α) :=
  match SEQAN_ASSERT_EQ cfg new_length (TSize.cast (length me)) with
  | .error f => .error f
  | .ok _ => .ok (cfg.Difference.MakeUnsigned.cast (length me), me, store)

/-- The call `resize(me, length(me))` made `n + 1` times in a row, each on the
state the previous call left; the last call's result is returned. -/
def resizeRepeatedly {α : Type} (cfg : Config) :
    Nat → Range → Store α → Except Failure (Int × Range × Store α)
  | 0, me, store => resize cfg cfg.Difference me store (length me)
  | n + 1, me, store =>
    match resize cfg cfg.Difference me store (length me) with
    | .error f => .error f
    | .ok (_, me, store) => resizeRepeatedly cfg n me store

/-- The function `assign(Range & view, TContainer & cont)`. -/
def assign (view : Range) (cont : Container) : Range :=
  let view := { view with _begin := cont.begin }
  { view with _end := cont.end_ }

/-- The function `toRange(begin, end)`. -/
def toRange (b e : Int) : Range := Range.ofIterators b e

/-- Modelled from the spec: the function `getValue(Range const &, pos)`, which
is not part of this header.  It returns a read-only result for the same
position as `value`, the element at begin + offset, and requires the offset
within `[0, length)` under the debug-assertion policy: outside it the access is
fatal in a debug build and unchecked in an optimized build. -/
def getValue {α : Type} (cfg : Config) (store : Store α) (view : Range) (pos : Int) :
    Except Failure α :=
  if cfg.enableDebug && decide (pos < 0 ∨ length view ≤ pos) then .error .assertion
  else Store.read store (valueConst view pos)

namespace Range

/-- The member `operator=`: `assign(*this, other); return *this;`. -/
def opAssign (self : Range) (other : Container) : Range := assign self other

/-- The mutable member `operator[]`: the reference `value(*this, pos)`. -/
def index (self : Range) (pos : Int) : Int := value self pos

/-- The immutable member `operator[]`: the result of `getValue(*this, pos)`. -/
def indexConst {α : Type} (cfg : Config) (store : Store α) (self : Range) (pos : Int) :
    Except Failure α :=
  getValue cfg store self pos

/-- The statement `view[pos] = x`: a write through the reference that the
mutable `operator[]` returns.  The view object itself is handed back. -/
def indexWrite {α : Type} (self : Range) (store : Store α) (pos : Int) (x : α) :
    Except Failure (Range × Store α) :=
  match Store.write store (self.index pos) x with
  | .error f => .error f
  | .ok store => .ok (self, store)

/-- The view lies inside the store: every slot in `[_begin, _end)` exists. -/
def ValidIn {α : Type} (view : Range) (s : Store α) : Prop :=
  0 ≤ view._begin ∧ view._begin ≤ view._end ∧ view._end ≤ (s.length : Int)

instance {α : Type} (view : Range) (s : Store α) : Decidable (view.ValidIn s) := by
  unfold ValidIn; exact inferInstance

end Range

/-- A copy of a view.  For a non-const view the constructor
`Range(TOtherContainer & cont)` is the one chosen, with the view as the
container: it stores `begin(cont, Standard())` and `end(cont, Standard())`, which
is what the implicit copy constructor stores member by member. -/
def Range.copy (other : Range) : Range :=
  { _begin := begin other, _end := end_ other }

/-- Modelled from the spec: what the templates `Range(TOtherContainer &)`,
`operator=` and `assign(Range &, TContainer &)` ask of the type they are handed:
a begin/end accessor pair returning standard iterators.  `κ` is that type; an
owning container qualifies, and so does a view. -/
structure BeginEnd (κ : Type) where
  begin : κ → Int
  end_ : κ → Int

/-- The accessor pair of an owning container. -/
def Container.accessors : BeginEnd Container :=
  { begin := Container.begin, end_ := Container.end_ }

/-- The accessor pair of a view: `begin(Range &, Standard)` and
`end(Range &, Standard)`. -/
def Range.accessors : BeginEnd Range :=
  { begin := fun view => Seqan.begin view, end_ := fun view => Seqan.end_ view }

/-- The constructor template `Range(TOtherContainer & cont)` at any type that
has the accessor pair. -/
def Range.ofAny {κ : Type} (acc : BeginEnd κ) (cont : κ) : Range :=
  { _begin := acc.begin cont, _end := acc.end_ cont }

/-- The function template `assign(Range & view, TContainer & cont)` at any type
that has the accessor pair. -/
def assignAny {κ : Type} (acc : BeginEnd κ) (view : Range) (cont : κ) : Range :=
  let view := { view with _begin := acc.begin cont }
  { view with _end := acc.end_ cont }

/-- The objects around a rebinding: the view `V`, an earlier copy `W` of it,
and the store both point into. -/
structure Scene (α : Type) where
  V : Range
  W : Range
  store : Store α

/-- The statements `Range W(V); assign(V, cont);` run on a view and the store. -/
def copyThenAssign {α : Type} (V : Range) (cont : Container) (store : Store α) : Scene α :=
  let W := Range.copy V
  let V := assign V cont
  { V := V, W := W, store := store }

/-! ## pipe interface -/

/-- Modelled from the spec: the producer capability (`Pipe`), which this
header only declares.  A producer exposes a length query (a value of its size
type `Size<Pipe>::Type`), a begin-read signal, an end-read signal, and
sequential pull: dereference and increment.  `σ` is the producer's internal
state. -/
structure Pipe (σ α : Type) where
  sizeType : IntType
  length : σ → Int
  length_holds : ∀ s, sizeType.Holds (length s)
  beginRead : σ → σ
  endRead : σ → σ
  deref : σ → α
  incr : σ → σ

/-- An operation performed on the producer. -/
inductive PipeOp where
  | length
  | beginRead
  | deref
  | incr
  | endRead
  deriving DecidableEq, Repr

/-- Everything `assign(Range & dest, Pipe & src)` can touch: the destination
view, the store, the producer's state; with a record of the operations
performed on the producer and of the slots written, oldest first, and the
failure that stopped the run, if any. -/
structure Machine (σ α : Type) where
  dest : Range
  store : Store α
  src : σ
  ops : List PipeOp
  writes : List Int
  failure : Option Failure

/-- The machine before the call. -/
def Machine.init {σ α : Type} (dest : Range) (store : Store α) (src : σ) : Machine σ α :=
  { dest := dest, store := store, src := src, ops := [], writes := [], failure := none }

/-- The loop `for (_cur = begin(dest), _end = end(dest); _cur != _end; ++_cur, ++src)
*_cur = *src;` started at `_cur`. -/
def assignLoop {σ α : Type} (src : Pipe σ α) : Nat → Int → Int → Machine σ α → Machine σ α
  | 0, _cur, _end, m =>
    if _cur = _end then m else { m with failure := some .fuel }
  | fuel + 1, _cur, _end, m =>
    if _cur = _end then m
    else
      match Store.write m.store _cur (src.deref m.src) with
      | .error f => { m with ops := m.ops ++ [PipeOp.deref], failure := some f }
      | .ok store =>
        assignLoop src fuel (_cur + 1) _end
          { m with store := store, src := src.incr m.src,
                   ops := m.ops ++ [PipeOp.deref, PipeOp.incr], writes := m.writes ++ [_cur] }

/-- The function `assign(Range & dest, Pipe & src)`. -/
def assignPipe {σ α : Type} (cfg : Config) (fuel : Nat) (src : Pipe σ α) (m : Machine σ α) :
    Machine σ α :=
  let new_length := src.length m.src
  let m := { m with ops := m.ops ++ [PipeOp.length] }
  match resize cfg src.sizeType m.dest m.store new_length with
  | .error f => { m with failure := some f }
  | .ok (_, dest, store) =>
    let m := { m with dest := dest, store := store }
    let m := { m with src := src.beginRead m.src, ops := m.ops ++ [PipeOp.beginRead] }
    let m := assignLoop src fuel (begin m.dest) (end_ m.dest) m
    match m.failure with
    | some _ => m
    | none => { m with src := src.endRead m.src, ops := m.ops ++ [PipeOp.endRead] }

/-- The `k`-th element the producer yields once reading has begun. -/
def Pipe.produced {σ α : Type} (src : Pipe σ α) (s : σ) (k : Nat) : α :=
  src.deref (src.incr^[k] (src.beginRead s))

/-- A producer over a list, with an unsigned size type of `sizeBits` bits: the
state is what is left to yield, the declared length is `total` converted to the
size type, and dereferencing an exhausted producer yields `dflt`. -/
def listPipe {α : Type} (sizeBits : Nat) (total : Nat) (dflt : α) : Pipe (List α) α :=
  { sizeType := ⟨sizeBits, false⟩
    length := fun _ => (total : Int) % ((2 ^ sizeBits : Nat) : Int)
    length_holds := fun _ => by
      have hpos : (0 : Int) < ((2 ^ sizeBits : Nat) : Int) := by positivity
      simp only [IntType.Holds, IntType.modulus]
      exact ⟨Int.emod_nonneg _ (ne_of_gt hpos), Int.emod_lt_of_pos _ hpos⟩
    beginRead := fun s => s
    endRead := fun s => s
    deref := fun s => s.headD dflt
    incr := fun s => s.tail }

/-! ## Theorems -/

/-! ## Storage lemmas -/

/-- Reading a position that holds `x` yields `x`. -/
theorem Store.read_of_getElem? {α : Type} (s : Store α) (p : Int) (x : α)
    (hp : 0 ≤ p) (hx : s[p.toNat]? = some x) : Store.read s p = .ok x := by
  unfold Store.read
  rw [if_neg (by omega)]
  simp [hx]

/-- Reading at a natural-number position that holds `x` yields `x`. -/
theorem Store.read_ofNat {α : Type} (s : Store α) (n : Nat) (x : α)
    (hx : s[n]? = some x) : Store.read s (n : Int) = .ok x :=
  Store.read_of_getElem? s n x (by omega) (by simpa using hx)

/-- A container inside the store has as many elements as its size. -/
theorem Container.elems_length {α : Type} (C : Container) (s : Store α) (hC : C.ValidIn s) :
    (C.elems s).length = C.size := by
  obtain ⟨h0, h1⟩ := hC
  simp only [Container.elems, List.length_take, List.length_drop]
  omega

/-- The `i`-th element of a container is the store at `data_begin + i`. -/
theorem Container.elems_getElem? {α : Type} (C : Container) (s : Store α) (i : Nat)
    (hi : i < C.size) : (C.elems s)[i]? = s[C.data_begin.toNat + i]? := by
  simp only [Container.elems]
  rw [List.getElem?_take_of_lt hi, List.getElem?_drop]

/-- A view bound to a whole container has the container's size and addresses
the container's elements. -/
theorem view_observes_container {α : Type} (s : Store α) (C : Container)
    (hC : C.ValidIn s) :
    length (Range.ofContainer C) = C.size ∧ (C.elems s).length = C.size ∧
    ∀ i : Nat, i < C.size →
      ∃ x, (C.elems s)[i]? = some x ∧
        Store.read s (value (Range.ofContainer C) i) = .ok x := by
  refine ⟨by simp [length, Range.ofContainer, Container.begin, Container.end_],
    Container.elems_length C s hC, ?_⟩
  intro i hi
  obtain ⟨h0, h1⟩ := hC
  have hlt : C.data_begin.toNat + i < s.length := by omega
  refine ⟨s[C.data_begin.toNat + i], ?_, ?_⟩
  · rw [Container.elems_getElem? C s i hi, List.getElem?_eq_getElem hlt]
  · have : value (Range.ofContainer C) (i : Int)
        = ((C.data_begin.toNat + i : Nat) : Int) := by
      simp only [value, Range.ofContainer, Container.begin]; omega
    rw [this]
    exact Store.read_ofNat s _ _ (List.getElem?_eq_getElem hlt)

/-- C1. For every container that lies in the store and the view constructed
from it (by either container constructor), `length` of the view equals the
container's size, and for every `i` below the size, reading `value(V, i)` yields
the `i`-th element of the container. -/
theorem view_of_container_observes_container {α : Type} (s : Store α) (C : Container)
    (V : Range) (hV : V = Range.ofContainer C ∨ V = Range.ofContainerConst C)
    (hC : C.ValidIn s) :
    length V = C.size ∧ (C.elems s).length = C.size ∧
    ∀ i : Nat, i < C.size →
      ∃ x, (C.elems s)[i]? = some x ∧ Store.read s (value V i) = .ok x := by
  have hVeq : V = Range.ofContainer C := by
    rcases hV with h | h <;> exact h
  subst hVeq
  exact view_observes_container s C hC

/-- C1 at the container `[10, 20, 30, 40, 50]`: the view has length 5 and
`value(V, 2)` reads 30. -/
theorem view_of_container_observes_container_witness :
    Container.ValidIn ⟨0, 5⟩ ([10, 20, 30, 40, 50] : Store Int) ∧
    length (Range.ofContainer ⟨0, 5⟩) = 5 ∧
    Store.read ([10, 20, 30, 40, 50] : Store Int) (value (Range.ofContainer ⟨0, 5⟩) 2) = .ok 30 := by
  have h := view_of_container_observes_container ([10, 20, 30, 40, 50] : Store Int) ⟨0, 5⟩
    (Range.ofContainer ⟨0, 5⟩) (Or.inl rfl) (by decide)
  refine ⟨by decide, h.1, ?_⟩
  obtain ⟨x, hx, hr⟩ := h.2.2 2 (by decide)
  have hx30 : x = 30 := by
    have : ([10, 20, 30, 40, 50] : List Int)[2]? = some x := hx
    simpa using this.symm
  subst hx30
  exact hr

/-- Writing inside the store succeeds and sets that position. -/
theorem Store.write_ok {α : Type} (s : Store α) (p : Int) (x : α)
    (h0 : 0 ≤ p) (h1 : p < (s.length : Int)) :
    Store.write s p x = .ok (s.set p.toNat x) := by
  unfold Store.write
  rw [if_pos ⟨h0, h1⟩]

/-- A write leaves the reads at the other positions as they were. -/
theorem Store.read_set_ne {α : Type} (s : Store α) (n : Nat) (x : α) (q : Int)
    (hq : q ≠ (n : Int)) : Store.read (s.set n x) q = Store.read s q := by
  unfold Store.read
  by_cases hneg : q < 0
  · simp [hneg]
  · rw [if_neg hneg, if_neg hneg]
    have hne : n ≠ q.toNat := by omega
    rw [List.getElem?_set_ne hne]

/-- A position inside the store reads back what was written to it. -/
theorem Store.read_set_eq {α : Type} (s : Store α) (n : Nat) (x : α)
    (hn : n < s.length) : Store.read (s.set n x) (n : Int) = .ok x :=
  Store.read_ofNat _ n x (by rw [List.getElem?_set]; simp [hn])

/-- Setting the store at `data_begin + i` sets the `i`-th element of the container. -/
theorem Container.elems_set {α : Type} (C : Container) (s : Store α) (i : Nat) (x : α) :
    C.elems (s.set (C.data_begin.toNat + i) x) = (C.elems s).set i x := by
  simp only [Container.elems]
  rw [List.drop_set, if_neg (by omega), List.set_take]
  congr 2
  omega

/-- C2. Write-through: for a view bound to a container in the store and an
index `i` in `[0, length(V))`, the statement `V[i] = x` succeeds, hands back the
same view (begin and end unchanged), makes the container's `i`-th element `x`,
leaves the container's other elements as they were (its element list is the old
one with position `i` set to `x`), and changes no other position of the store. -/
theorem write_through_view_reaches_container {α : Type} (s : Store α) (C : Container)
    (V : Range) (i : Int) (x : α) (hV : V = Range.ofContainer C) (hC : C.ValidIn s)
    (h0 : 0 ≤ i) (h1 : i < length V) :
    ∃ s', V.indexWrite s i x = .ok (V, s') ∧
      (C.elems s')[i.toNat]? = some x ∧
      C.elems s' = (C.elems s).set i.toNat x ∧
      s'.length = s.length ∧
      ∀ q : Int, q ≠ C.begin + i → Store.read s' q = Store.read s q := by
  subst hV
  obtain ⟨hb, he⟩ := hC
  have hlen : length (Range.ofContainer C) = C.size := by
    simp [length, Range.ofContainer, Container.begin, Container.end_]
  rw [hlen] at h1
  have hpos : (Range.ofContainer C).index i = ((C.data_begin.toNat + i.toNat : Nat) : Int) := by
    simp only [Range.index, value, Range.ofContainer, Container.begin]; omega
  refine ⟨s.set (C.data_begin.toNat + i.toNat) x, ?_, ?_, ?_, ?_, ?_⟩
  · unfold Range.indexWrite
    rw [hpos, Store.write_ok s _ x (by omega) (by omega), Int.toNat_ofNat]
  · rw [Container.elems_set C s _ x, List.getElem?_set]
    have : i.toNat < (C.elems s).length := by
      rw [Container.elems_length C s ⟨hb, he⟩]; omega
    simp [this]
  · exact Container.elems_set C s _ x
  · simp
  · intro q hq
    apply Store.read_set_ne
    simp only [Container.begin] at hq
    omega

/-- C2 at the container `[10, 20, 30, 40, 50]` with `V[2] = 99`. -/
theorem write_through_view_reaches_container_witness :
    ∃ s', (Range.ofContainer ⟨0, 5⟩).indexWrite ([10, 20, 30, 40, 50] : Store Int) 2 99
        = .ok (Range.ofContainer ⟨0, 5⟩, s') ∧
      (Container.elems ⟨0, 5⟩ s')[(2 : Int).toNat]? = some 99 ∧
      Container.elems ⟨0, 5⟩ s' =
        (Container.elems ⟨0, 5⟩ ([10, 20, 30, 40, 50] : Store Int)).set (2 : Int).toNat 99 ∧
      s'.length = ([10, 20, 30, 40, 50] : Store Int).length ∧
      ∀ q : Int, q ≠ Container.begin ⟨0, 5⟩ + 2 →
        Store.read s' q = Store.read ([10, 20, 30, 40, 50] : Store Int) q :=
  write_through_view_reaches_container ([10, 20, 30, 40, 50] : Store Int) ⟨0, 5⟩
    (Range.ofContainer ⟨0, 5⟩) 2 99 rfl (by decide) (by decide) (by decide)


/-! ## Machine integer lemmas -/

/-- The number of values of an integer type is positive. -/
theorem IntType.modulus_pos (t : IntType) : 0 < t.modulus := by
  unfold IntType.modulus; positivity

/-- Converting a representable value changes nothing. -/
theorem IntType.cast_of_holds (t : IntType) (x : Int) (h : t.Holds x) : t.cast x = x := by
  have hm := t.modulus_pos
  unfold IntType.Holds at h
  unfold IntType.cast
  by_cases hs : t.isSigned = true
  · rw [if_pos hs] at h ⊢
    rw [Int.emod_eq_of_lt (by omega) (by omega)]
    omega
  · rw [if_neg hs] at h ⊢
    by_cases hb : t.bits = 1
    · rw [if_pos hb]
      have h2 : t.modulus = 2 := by simp [IntType.modulus, hb]
      by_cases hx : x = 0
      · rw [if_pos hx, hx]
      · rw [if_neg hx]; omega
    · rw [if_neg hb]
      exact Int.emod_eq_of_lt h.1 h.2

/-! ## The pull loop -/

/-- The record of `n` pulls: a dereference followed by an increment, `n` times. -/
theorem pulls_succ (n : Nat) :
    [PipeOp.deref, PipeOp.incr] ++ (List.replicate n [PipeOp.deref, PipeOp.incr]).flatten
      = (List.replicate (n + 1) [PipeOp.deref, PipeOp.incr]).flatten := by
  rw [List.replicate_succ, List.flatten_cons]

/-- The slots of `n + 1` pulls: the current one, then those of `n` pulls. -/
theorem slots_succ (cur : Int) (n : Nat) :
    cur :: (List.range n).map (fun k : Nat => cur + 1 + (k : Int))
      = (List.range (n + 1)).map (fun k : Nat => cur + (k : Int)) := by
  rw [List.range_succ_eq_map, List.map_cons, List.map_map]
  simp only [Nat.cast_zero, add_zero, List.cons.injEq, true_and]
  apply List.map_congr_left
  intro k _
  simp only [Function.comp, Nat.succ_eq_add_one, Nat.cast_add, Nat.cast_one]
  omega

/-- The pull loop over `n` slots inside the store, with fuel for each: it
terminates without failure after `n` pulls, slot `cur + k` then holds the
producer's `k`-th element from its current state, and nothing outside
`[cur, cur + n)` has changed. -/
theorem assignLoop_run {σ α : Type} (src : Pipe σ α) (n : Nat) :
    ∀ (fuel : Nat) (cur : Int) (m : Machine σ α),
      0 ≤ cur → cur + n ≤ (m.store.length : Int) → n ≤ fuel →
      ∃ store : Store α,
        assignLoop src fuel cur (cur + n) m =
          { m with store := store, src := src.incr^[n] m.src,
                   ops := m.ops ++ (List.replicate n [PipeOp.deref, PipeOp.incr]).flatten,
                   writes := m.writes ++ (List.range n).map (fun k : Nat => cur + (k : Int)) } ∧
        store.length = m.store.length ∧
        (∀ k : Nat, k < n →
          Store.read store (cur + k) = .ok (src.deref (src.incr^[k] m.src))) ∧
        (∀ q : Int, q < cur ∨ cur + n ≤ q → Store.read store q = Store.read m.store q) := by
  induction n with
  | zero =>
    intro fuel cur m _ _ _
    refine ⟨m.store, ?_, rfl, ?_, ?_⟩
    · cases fuel <;> simp [assignLoop]
    · intro k hk; omega
    · intro q _; rfl
  | succ n ih =>
    intro fuel cur m h0 h1 hf
    obtain ⟨fuel, rfl⟩ : ∃ f, fuel = f + 1 := ⟨fuel - 1, by omega⟩
    have hne : ¬ cur = cur + ((n + 1 : Nat) : Int) := by omega
    have hw := Store.write_ok m.store cur (src.deref m.src) h0 (by omega)
    have hend : cur + ((n + 1 : Nat) : Int) = cur + 1 + (n : Int) := by omega
    obtain ⟨store, hrun, hlen, hread, hframe⟩ := ih fuel (cur + 1)
      { m with store := m.store.set cur.toNat (src.deref m.src), src := src.incr m.src,
               ops := m.ops ++ [PipeOp.deref, PipeOp.incr], writes := m.writes ++ [cur] }
      (by omega) (by simp only [List.length_set]; omega) (by omega)
    refine ⟨store, ?_, ?_, ?_, ?_⟩
    · rw [assignLoop, if_neg hne, hw]
      simp only
      rw [hend, hrun]
      simp only [List.append_assoc, pulls_succ, List.singleton_append, slots_succ,
        Function.iterate_succ_apply]
    · rw [hlen, List.length_set]
    · intro k hk
      cases k with
      | zero =>
        have := hframe cur (Or.inl (by omega))
        simp only [Nat.cast_zero, add_zero, Function.iterate_zero, id_eq]
        rw [this]
        have hc : cur = ((cur.toNat : Nat) : Int) := by omega
        have hlt : cur.toNat < m.store.length := by omega
        have := Store.read_set_eq m.store cur.toNat (src.deref m.src) hlt
        rw [← hc] at this
        exact this
      | succ k =>
        have := hread k (by omega)
        rw [Function.iterate_succ_apply]
        have he : cur + ((k + 1 : Nat) : Int) = cur + 1 + (k : Int) := by omega
        rw [he]; exact this
    · intro q hq
      rw [hframe q (by omega)]
      apply Store.read_set_ne
      omega

/-- The assertion passes on equal values. -/
theorem SEQAN_ASSERT_EQ_refl (cfg : Config) (a b : Int) (h : a = b) :
    SEQAN_ASSERT_EQ cfg a b = .ok () := by
  simp [SEQAN_ASSERT_EQ, h]

/-- The assertion passes in a build without debug checks. -/
theorem SEQAN_ASSERT_EQ_release (cfg : Config) (a b : Int) (h : cfg.enableDebug = false) :
    SEQAN_ASSERT_EQ cfg a b = .ok () := by
  simp [SEQAN_ASSERT_EQ, h]

/-- The assertion fails on different values in a debug build. -/
theorem SEQAN_ASSERT_EQ_debug_ne (cfg : Config) (a b : Int) (h : cfg.enableDebug = true)
    (hab : a ≠ b) : SEQAN_ASSERT_EQ cfg a b = .error .assertion := by
  simp [SEQAN_ASSERT_EQ, h, hab]

/-- A run of `assign(Range &, Pipe &)` whose `resize` check passes, on a view
that lies inside the store, with fuel for every slot. -/
theorem assignPipe_run {σ α : Type} (cfg : Config) (src : Pipe σ α) (dest : Range)
    (store : Store α) (s : σ) (n fuel : Nat) (hV : dest.ValidIn store)
    (hn : length dest = n) (hfuel : n ≤ fuel)
    (hcheck : SEQAN_ASSERT_EQ cfg (src.length s) (src.sizeType.cast (length dest)) = .ok ()) :
    ∃ store' : Store α,
      assignPipe cfg fuel src (Machine.init dest store s) =
        { dest := dest, store := store',
          src := src.endRead (src.incr^[n] (src.beginRead s)),
          ops := PipeOp.length :: PipeOp.beginRead ::
            ((List.replicate n [PipeOp.deref, PipeOp.incr]).flatten ++ [PipeOp.endRead]),
          writes := (List.range n).map (fun k : Nat => dest._begin + (k : Int)),
          failure := none } ∧
      store'.length = store.length ∧
      (∀ k : Nat, k < n → Store.read store' (dest._begin + k) = .ok (src.produced s k)) ∧
      (∀ q : Int, q < dest._begin ∨ dest._end ≤ q → Store.read store' q = Store.read store q) := by
  obtain ⟨hb, hle, he⟩ := hV
  have hend : dest._end = dest._begin + (n : Int) := by
    simp only [length] at hn; omega
  obtain ⟨store', hrun, hlen, hread, hframe⟩ := assignLoop_run src n fuel dest._begin
    { dest := dest, store := store, src := src.beginRead s,
      ops := [PipeOp.length, PipeOp.beginRead], writes := [], failure := none }
    hb (by simp only; omega) hfuel
  refine ⟨store', ?_, hlen, ?_, ?_⟩
  · simp only [assignPipe, Machine.init, resize, hcheck, List.nil_append, begin, end_,
      List.singleton_append]
    rw [hend, hrun]
    simp
  · intro k hk
    exact hread k hk
  · intro q hq
    exact hframe q (by omega)

/-- C3. For a producer whose declared length is `N` and a view of length `N`
inside the store, `assign(V, P)` with fuel for `N` slots completes without
failure, and afterwards reading `value(V, i)` yields the `i`-th produced element
for every `i < N`. -/
theorem assign_from_producer_fills_view {σ α : Type} (cfg : Config) (P : Pipe σ α)
    (V : Range) (store : Store α) (s : σ) (N fuel : Nat) (hV : V.ValidIn store)
    (hN : length V = N) (hP : P.length s = N) (hfuel : N ≤ fuel) :
    (assignPipe cfg fuel P (Machine.init V store s)).failure = none ∧
    ∀ i : Nat, i < N →
      Store.read (assignPipe cfg fuel P (Machine.init V store s)).store
        (value (assignPipe cfg fuel P (Machine.init V store s)).dest i) = .ok (P.produced s i) := by
  have hcheck : SEQAN_ASSERT_EQ cfg (P.length s) (P.sizeType.cast (length V)) = .ok () := by
    apply SEQAN_ASSERT_EQ_refl
    rw [hN, ← hP, IntType.cast_of_holds _ _ (P.length_holds s)]
  obtain ⟨store', hrun, -, hread, -⟩ := assignPipe_run cfg P V store s N fuel hV hN hfuel hcheck
  rw [hrun]
  exact ⟨rfl, fun i hi => hread i hi⟩

/-- C3 at the view `[1, 4)` over five slots and the producer of 7, 8, 9. -/
theorem assign_from_producer_fills_view_witness :
    (assignPipe ⟨true, 64⟩ 3 (listPipe 64 3 (0 : Int))
      (Machine.init ⟨1, 4⟩ [10, 20, 30, 40, 50] [7, 8, 9])).failure = none ∧
    ∀ i : Nat, i < 3 →
      Store.read (assignPipe ⟨true, 64⟩ 3 (listPipe 64 3 (0 : Int))
          (Machine.init ⟨1, 4⟩ [10, 20, 30, 40, 50] [7, 8, 9])).store
        (value (assignPipe ⟨true, 64⟩ 3 (listPipe 64 3 (0 : Int))
          (Machine.init ⟨1, 4⟩ [10, 20, 30, 40, 50] [7, 8, 9])).dest i)
        = .ok ((listPipe 64 3 (0 : Int)).produced [7, 8, 9] i) :=
  assign_from_producer_fills_view ⟨true, 64⟩ (listPipe 64 3 (0 : Int)) ⟨1, 4⟩
    [10, 20, 30, 40, 50] [7, 8, 9] 3 3 (by decide) (by decide) (by decide) (by decide)

/-- C4. For a producer and a view with `length(V) = length(P) = N`, the
operations `assign(V, P)` performs on the producer are, in order: the length
query made for `resize`, one begin-read signal, `N` pulls (each a dereference
followed by an increment), one end-read signal; so the signals and pulls alone
are exactly begin-read, the `N` pulls, end-read.  The slots written are
`begin + 0, ..., begin + (N - 1)` in that order, and the producer ends in the
state reached by begin-read, `N` increments, end-read. -/
theorem assign_from_producer_operation_order {σ α : Type} (cfg : Config) (P : Pipe σ α)
    (V : Range) (store : Store α) (s : σ) (N fuel : Nat) (hV : V.ValidIn store)
    (hN : length V = N) (hP : P.length s = N) (hfuel : N ≤ fuel) :
    (assignPipe cfg fuel P (Machine.init V store s)).ops =
      PipeOp.length :: PipeOp.beginRead ::
        ((List.replicate N [PipeOp.deref, PipeOp.incr]).flatten ++ [PipeOp.endRead]) ∧
    (assignPipe cfg fuel P (Machine.init V store s)).ops.filter (fun o => o != PipeOp.length) =
      PipeOp.beginRead ::
        ((List.replicate N [PipeOp.deref, PipeOp.incr]).flatten ++ [PipeOp.endRead]) ∧
    (assignPipe cfg fuel P (Machine.init V store s)).writes =
      (List.range N).map (fun k : Nat => begin V + (k : Int)) ∧
    (assignPipe cfg fuel P (Machine.init V store s)).src =
      P.endRead (P.incr^[N] (P.beginRead s)) := by
  have hcheck : SEQAN_ASSERT_EQ cfg (P.length s) (P.sizeType.cast (length V)) = .ok () := by
    apply SEQAN_ASSERT_EQ_refl
    rw [hN, ← hP, IntType.cast_of_holds _ _ (P.length_holds s)]
  obtain ⟨store', hrun, -, -, -⟩ := assignPipe_run cfg P V store s N fuel hV hN hfuel hcheck
  rw [hrun]
  refine ⟨rfl, ?_, rfl, rfl⟩
  simp only
  rw [List.filter_cons_of_neg (by decide), List.filter_cons_of_pos (by decide),
    List.filter_eq_self.mpr]
  intro o ho
  have : o ≠ PipeOp.length := by
    rcases List.mem_append.mp ho with h | h
    · obtain ⟨l, hl, hol⟩ := List.mem_flatten.mp h
      rw [(List.mem_replicate.mp hl).2] at hol
      rcases List.mem_cons.mp hol with h | h
      · rw [h]; decide
      · rw [List.mem_singleton.mp h]; decide
    · rw [List.mem_singleton.mp h]; decide
  simpa using this


/-- C4 at the view `[1, 4)` over five slots and the producer of 7, 8, 9. -/
theorem assign_from_producer_operation_order_witness :
    (assignPipe ⟨true, 64⟩ 3 (listPipe 64 3 (0 : Int))
      (Machine.init ⟨1, 4⟩ [10, 20, 30, 40, 50] [7, 8, 9])).ops =
      [PipeOp.length, PipeOp.beginRead, PipeOp.deref, PipeOp.incr, PipeOp.deref, PipeOp.incr,
        PipeOp.deref, PipeOp.incr, PipeOp.endRead] ∧
    (assignPipe ⟨true, 64⟩ 3 (listPipe 64 3 (0 : Int))
      (Machine.init ⟨1, 4⟩ [10, 20, 30, 40, 50] [7, 8, 9])).writes = [1, 2, 3] :=
  have h := assign_from_producer_operation_order ⟨true, 64⟩ (listPipe 64 3 (0 : Int)) ⟨1, 4⟩
    [10, 20, 30, 40, 50] [7, 8, 9] 3 3 (by decide) (by decide) (by decide) (by decide)
  ⟨h.1, h.2.2.1⟩

/-- Converting a non-negative representable value to the unsigned type changes nothing. -/
theorem IntType.cast_unsigned_of_nonneg (t : IntType) (x : Int) (h0 : 0 ≤ x)
    (h : t.Holds x) : t.MakeUnsigned.cast x = x := by
  have hm := t.modulus_pos
  have hx : x < t.modulus := by
    unfold IntType.Holds at h
    by_cases hs : t.isSigned = true
    · rw [if_pos hs] at h; omega
    · rw [if_neg hs] at h; exact h.2
  apply IntType.cast_of_holds
  simp only [IntType.Holds, IntType.MakeUnsigned, Bool.false_eq_true, if_false,
    IntType.modulus] at hx ⊢
  exact ⟨h0, hx⟩

/-- The call `resize(V, length(V))` on a view with `begin <= end`. -/
theorem resize_same_length {α : Type} (cfg : Config) (V : Range) (store : Store α)
    (hle : V._begin ≤ V._end) (hty : cfg.Difference.Holds (length V)) :
    resize cfg cfg.Difference V store (length V) = .ok (length V, V, store) := by
  have h0 : 0 ≤ length V := by simp only [length]; omega
  simp only [resize, IntType.cast_of_holds _ _ hty, SEQAN_ASSERT_EQ_refl cfg _ _ rfl,
    IntType.cast_unsigned_of_nonneg _ _ h0 hty]

/-- C5. For every view with `begin <= end` whose length is a value of its
difference type, `resize(V, length(V))` succeeds, returns `length(V)` and hands
back the same view and store; calling it any number of times in a row gives the
same result and state. -/
theorem resize_to_current_length_is_noop {α : Type} (cfg : Config) (V : Range)
    (store : Store α) (hle : V._begin ≤ V._end) (hty : cfg.Difference.Holds (length V)) :
    resize cfg cfg.Difference V store (length V) = .ok (length V, V, store) ∧
    ∀ n : Nat, resizeRepeatedly cfg n V store = .ok (length V, V, store) := by
  have h1 := resize_same_length cfg V store hle hty
  refine ⟨h1, ?_⟩
  intro n
  induction n with
  | zero => exact h1
  | succ n ih => simp only [resizeRepeatedly, h1, ih]

/-- C5 at the view `[1, 4)` with a 64-bit difference type. -/
theorem resize_to_current_length_is_noop_witness :
    resize ⟨true, 64⟩ (Config.Difference ⟨true, 64⟩) ⟨1, 4⟩ ([10, 20, 30, 40, 50] : Store Int)
        (length ⟨1, 4⟩) = .ok (length ⟨1, 4⟩, ⟨1, 4⟩, [10, 20, 30, 40, 50]) ∧
    ∀ n : Nat, resizeRepeatedly ⟨true, 64⟩ n ⟨1, 4⟩ ([10, 20, 30, 40, 50] : Store Int)
        = .ok (length ⟨1, 4⟩, ⟨1, 4⟩, [10, 20, 30, 40, 50]) :=
  resize_to_current_length_is_noop ⟨true, 64⟩ ⟨1, 4⟩ [10, 20, 30, 40, 50]
    (by decide) (by decide)

/-- C6, counterexample.  With an 8-bit unsigned `TSize`, a view of 256 slots
and `new_length = 0`, the value 0 differs from the length 256, yet the checked
`resize` succeeds: the assertion compares 0 with `(TSize)256 = 0`. -/
theorem resize_narrow_size_type_passes :
    IntType.Holds ⟨8, false⟩ 0 ∧ (0 : Int) ≠ length ⟨0, 256⟩ ∧
    resize ⟨true, 64⟩ ⟨8, false⟩ ⟨0, 256⟩ (List.replicate 256 (0 : Int)) 0
      = .ok (256, ⟨0, 256⟩, List.replicate 256 (0 : Int)) := by
  refine ⟨by decide, by decide, ?_⟩
  rfl

/-- In an integer type of at least two bits, `x + 1` and `x` convert to
different values. -/
theorem IntType.cast_succ_ne (t : IntType) (x : Int) (hb : 2 ≤ t.bits) :
    t.cast (x + 1) ≠ t.cast x := by
  have hm : 2 ≤ t.modulus := by
    unfold IntType.modulus
    have : 2 ^ 1 ≤ 2 ^ t.bits := Nat.pow_le_pow_right (by decide) (by omega)
    omega
  have key : ∀ y : Int, (y + 1) % t.modulus ≠ y % t.modulus := by
    intro y h
    have := Int.emod_eq_emod_iff_emod_sub_eq_zero.mp h
    simp only [add_sub_cancel_left] at this
    rw [Int.emod_eq_of_lt (by omega) (by omega)] at this
    omega
  unfold IntType.cast
  by_cases hs : t.isSigned = true
  · rw [if_pos hs, if_pos hs]
    intro h
    apply key (x + t.modulus / 2)
    have : x + 1 + t.modulus / 2 = x + t.modulus / 2 + 1 := by ring
    rw [this] at h
    omega
  · rw [if_neg hs, if_neg hs, if_neg (by omega), if_neg (by omega)]
    exact key x

/-- C6, amended.  Under the checked policy `resize(V, new_length)` fails with
the assertion failure exactly when `new_length` differs from `length(V)`
converted to `TSize`, and otherwise succeeds handing back the same view and
store.  Hence it fails for every `new_length` other than `length(V)` when
`TSize` can represent `length(V)`, and for `length(V) + 1` converted to any
integer `TSize` of at least 8 bits.  With `TSize = bool` it does not: every
non-zero length converts to `true`, so the request `(bool)(length(V) + 1)`
succeeds on a view whose length and length plus one are both non-zero. -/
theorem resize_checked_compares_in_TSize {α : Type} (cfg : Config) (TSize : IntType)
    (V : Range) (store : Store α) (new_length : Int) (hdbg : cfg.enableDebug = true) :
    (resize cfg TSize V store new_length = .error .assertion ↔
      new_length ≠ TSize.cast (length V)) ∧
    (new_length = TSize.cast (length V) →
      resize cfg TSize V store new_length
        = .ok (cfg.Difference.MakeUnsigned.cast (length V), V, store)) ∧
    (TSize.Holds (length V) → new_length ≠ length V →
      resize cfg TSize V store new_length = .error .assertion) ∧
    (8 ≤ TSize.bits →
      resize cfg TSize V store (TSize.cast (length V + 1)) = .error .assertion) ∧
    (length V ≠ 0 → length V + 1 ≠ 0 →
      resize cfg ⟨1, false⟩ V store (IntType.cast ⟨1, false⟩ (length V + 1))
        = .ok (cfg.Difference.MakeUnsigned.cast (length V), V, store)) := by
  have hfail : ∀ n : Int, n ≠ TSize.cast (length V) →
      resize cfg TSize V store n = .error .assertion := by
    intro n hn
    simp only [resize, SEQAN_ASSERT_EQ_debug_ne cfg _ _ hdbg hn]
  have hok : ∀ (T : IntType) (n : Int), n = T.cast (length V) →
      resize cfg T V store n
        = .ok (cfg.Difference.MakeUnsigned.cast (length V), V, store) := by
    intro T n hn
    simp only [resize, SEQAN_ASSERT_EQ_refl cfg _ _ hn]
  refine ⟨⟨?_, hfail new_length⟩, hok TSize new_length, ?_, ?_, ?_⟩
  · intro h hn
    rw [hok TSize new_length hn] at h
    cases h
  · intro hty hne
    apply hfail
    rwa [IntType.cast_of_holds _ _ hty]
  · intro hb
    exact hfail _ (IntType.cast_succ_ne TSize (length V) (by omega))
  · intro h0 h1
    apply hok
    simp [IntType.cast, h0, h1]

/-- C6 amended, at the view `[1, 4)` and a 64-bit unsigned `TSize`: the
requests 4 (the length plus one) and 2 fail, the request 3 succeeds; with
`TSize = bool` the request `(bool)4` succeeds. -/
theorem resize_checked_compares_in_TSize_witness :
    resize ⟨true, 64⟩ ⟨64, false⟩ ⟨1, 4⟩ ([10, 20, 30, 40, 50] : Store Int) 4
      = .error .assertion ∧
    resize ⟨true, 64⟩ ⟨64, false⟩ ⟨1, 4⟩ ([10, 20, 30, 40, 50] : Store Int) 2
      = .error .assertion ∧
    resize ⟨true, 64⟩ ⟨64, false⟩ ⟨1, 4⟩ ([10, 20, 30, 40, 50] : Store Int) 3
      = .ok (3, ⟨1, 4⟩, [10, 20, 30, 40, 50]) ∧
    resize ⟨true, 64⟩ ⟨1, false⟩ ⟨1, 4⟩ ([10, 20, 30, 40, 50] : Store Int) 1
      = .ok (3, ⟨1, 4⟩, [10, 20, 30, 40, 50]) :=
  ⟨(resize_checked_compares_in_TSize ⟨true, 64⟩ ⟨64, false⟩ ⟨1, 4⟩ [10, 20, 30, 40, 50] 4
      rfl).2.2.2.1 (by decide),
    (resize_checked_compares_in_TSize ⟨true, 64⟩ ⟨64, false⟩ ⟨1, 4⟩ [10, 20, 30, 40, 50] 2
      rfl).2.2.1 (by decide) (by decide),
    (resize_checked_compares_in_TSize ⟨true, 64⟩ ⟨64, false⟩ ⟨1, 4⟩ [10, 20, 30, 40, 50] 3
      rfl).2.1 (by decide),
    (resize_checked_compares_in_TSize ⟨true, 64⟩ ⟨64, false⟩ ⟨1, 4⟩ [10, 20, 30, 40, 50] 3
      rfl).2.2.2.2 (by decide) (by decide)⟩

/-- C7. After `assign(V, C1)` followed by `assign(V, C2)` the view is the view
freshly constructed from `C2`, whatever `V` and `C1` were: its begin and end are
those of `C2`, its length is the size of `C2`, reading `value(V, i)` yields the
`i`-th element of `C2`; and two uses of `operator=` give the same view as the
two calls of `assign`. -/
theorem rebinding_observes_only_last_container {α : Type} (V : Range) (C1 C2 : Container)
    (s : Store α) (hC2 : C2.ValidIn s) :
    assign (assign V C1) C2 = Range.ofContainer C2 ∧
    begin (assign (assign V C1) C2) = C2.begin ∧
    end_ (assign (assign V C1) C2) = C2.end_ ∧
    length (assign (assign V C1) C2) = C2.size ∧
    (∀ i : Nat, i < C2.size →
      ∃ x, (C2.elems s)[i]? = some x ∧
        Store.read s (value (assign (assign V C1) C2) i) = .ok x) ∧
    (V.opAssign C1).opAssign C2 = assign (assign V C1) C2 := by
  have h : assign (assign V C1) C2 = Range.ofContainer C2 := rfl
  have hobs := view_observes_container s C2 hC2
  refine ⟨h, rfl, rfl, ?_, ?_, rfl⟩
  · rw [h]; exact hobs.1
  · rw [h]; exact hobs.2.2

/-- C7 at the containers `[0, 2)` and `[2, 5)` of a five-element store. -/
theorem rebinding_observes_only_last_container_witness :
    assign (assign ⟨7, 9⟩ ⟨0, 2⟩) ⟨2, 3⟩ = Range.ofContainer ⟨2, 3⟩ ∧
    begin (assign (assign ⟨7, 9⟩ ⟨0, 2⟩) ⟨2, 3⟩) = Container.begin ⟨2, 3⟩ ∧
    end_ (assign (assign ⟨7, 9⟩ ⟨0, 2⟩) ⟨2, 3⟩) = Container.end_ ⟨2, 3⟩ ∧
    length (assign (assign ⟨7, 9⟩ ⟨0, 2⟩) ⟨2, 3⟩) = ((3 : Nat) : Int) ∧
    (∀ i : Nat, i < 3 →
      ∃ x, (Container.elems ⟨2, 3⟩ ([10, 20, 30, 40, 50] : Store Int))[i]? = some x ∧
        Store.read ([10, 20, 30, 40, 50] : Store Int)
          (value (assign (assign ⟨7, 9⟩ ⟨0, 2⟩) ⟨2, 3⟩) i) = .ok x) ∧
    (Range.opAssign ⟨7, 9⟩ ⟨0, 2⟩).opAssign ⟨2, 3⟩ = assign (assign ⟨7, 9⟩ ⟨0, 2⟩) ⟨2, 3⟩ :=
  rebinding_observes_only_last_container ⟨7, 9⟩ ⟨0, 2⟩ ⟨2, 3⟩ [10, 20, 30, 40, 50] (by decide)

/-- C8, counterexample.  On the view `[1, 3)` over a store of five elements,
positions 2 (equal to the length) and -1 are outside `[0, length)`, yet `value`
and the mutable `operator[]` designate stored elements, which are read back. -/
theorem value_outside_view_returns_element :
    length (toRange 1 3) ≤ 2 ∧
    Store.read ([10, 20, 30, 40, 50] : Store Int) (value (toRange 1 3) 2) = .ok 40 ∧
    Store.read ([10, 20, 30, 40, 50] : Store Int) (valueConst (toRange 1 3) 2) = .ok 40 ∧
    Store.read ([10, 20, 30, 40, 50] : Store Int) ((toRange 1 3).index 2) = .ok 40 ∧
    Store.read ([10, 20, 30, 40, 50] : Store Int) (value (toRange 1 3) (-1)) = .ok 10 ∧
    Store.read ([10, 20, 30, 40, 50] : Store Int) ((toRange 1 3).index (-1)) = .ok 10 := by
  decide

/-- Reading the store never fails with an assertion failure. -/
theorem Store.read_ne_assertion {α : Type} (s : Store α) (p : Int) :
    Store.read s p ≠ .error .assertion := by
  unfold Store.read
  split
  · intro h; cases h
  · split <;> intro h <;> cases h

/-- The immutable `operator[]` inside `[0, length)` is the read at `begin + pos`,
under either policy. -/
theorem Range.indexConst_in_range {α : Type} (cfg : Config) (s : Store α) (V : Range)
    (pos : Int) (h0 : 0 ≤ pos) (h1 : pos < length V) :
    V.indexConst cfg s pos = Store.read s (V._begin + pos) := by
  have : ¬ (pos < 0 ∨ length V ≤ pos) := by omega
  simp [Range.indexConst, getValue, valueConst, this]

/-- C8, amended.  `value` (both overloads) and the mutable `operator[]` make no
bounds check under either policy: for every position they address `begin + pos`,
they never fail with the assertion failure, and whenever `begin + pos` lies in
the store they yield the element stored there, also when `pos` is outside
`[0, length)`.  The immutable `operator[]` is whatever `getValue` yields: under
the checked policy it fails with the assertion failure for every `pos` outside
`[0, length)`, and without debug checks it is the same unchecked read. -/
theorem value_is_unchecked {α : Type} (cfg : Config) (s : Store α) (V : Range) (pos : Int) :
    value V pos = V._begin + pos ∧
    valueConst V pos = V._begin + pos ∧
    V.index pos = V._begin + pos ∧
    Store.read s (value V pos) ≠ .error .assertion ∧
    Store.read s (valueConst V pos) ≠ .error .assertion ∧
    Store.read s (V.index pos) ≠ .error .assertion ∧
    (0 ≤ V._begin + pos → V._begin + pos < (s.length : Int) →
      ∃ x, s[(V._begin + pos).toNat]? = some x ∧
        Store.read s (value V pos) = .ok x ∧
        Store.read s (valueConst V pos) = .ok x ∧
        Store.read s (V.index pos) = .ok x) ∧
    V.indexConst cfg s pos = getValue cfg s V pos ∧
    (cfg.enableDebug = true → pos < 0 ∨ length V ≤ pos →
      V.indexConst cfg s pos = .error .assertion) ∧
    (cfg.enableDebug = false →
      V.indexConst cfg s pos = Store.read s (V._begin + pos)) := by
  refine ⟨rfl, rfl, rfl, Store.read_ne_assertion _ _, Store.read_ne_assertion _ _,
    Store.read_ne_assertion _ _, ?_, rfl, ?_, ?_⟩
  · intro h0 h1
    have hlt : (V._begin + pos).toNat < s.length := by omega
    have hget : s[(V._begin + pos).toNat]? = some s[(V._begin + pos).toNat] :=
      List.getElem?_eq_getElem hlt
    have hr := Store.read_of_getElem? s (V._begin + pos) _ h0 hget
    exact ⟨_, hget, hr, hr, hr⟩
  · intro hdbg hout
    simp [Range.indexConst, getValue, hdbg, hout]
  · intro hrel
    simp [Range.indexConst, getValue, hrel, valueConst]

/-- C8 amended, at the view `[1, 3)` over five elements and position 2: the
element 40 behind the view's end is returned by `value` and the mutable
`operator[]`, while the checked immutable `operator[]` fails. -/
theorem value_is_unchecked_witness :
    (∃ x, ([10, 20, 30, 40, 50] : Store Int)[((toRange 1 3)._begin + 2).toNat]? = some x ∧
      Store.read ([10, 20, 30, 40, 50] : Store Int) (value (toRange 1 3) 2) = .ok x ∧
      Store.read ([10, 20, 30, 40, 50] : Store Int) (valueConst (toRange 1 3) 2) = .ok x ∧
      Store.read ([10, 20, 30, 40, 50] : Store Int) ((toRange 1 3).index 2) = .ok x) ∧
    Range.indexConst ⟨true, 64⟩ ([10, 20, 30, 40, 50] : Store Int) (toRange 1 3) 2
      = .error .assertion :=
  ⟨(value_is_unchecked ⟨true, 64⟩ ([10, 20, 30, 40, 50] : Store Int) (toRange 1 3)
      2).2.2.2.2.2.2.1 (by decide) (by decide),
    (value_is_unchecked ⟨true, 64⟩ ([10, 20, 30, 40, 50] : Store Int) (toRange 1 3)
      2).2.2.2.2.2.2.2.2.1 rfl (by decide)⟩

/-- C9, counterexample.  A producer with an 8-bit unsigned size type declares
length 0; the view has 256 slots.  The lengths differ, yet the checked
`assign(V, P)` does not fail: the `resize` assertion compares 0 with
`(TSize)256 = 0`, the begin-read signal is sent, 256 pulls are made and 256 slots
written. -/
theorem assign_narrow_producer_size_passes :
    (listPipe 8 0 (0 : Int)).length [] ≠ length ⟨0, 256⟩ ∧
    (assignPipe ⟨true, 64⟩ 256 (listPipe 8 0 (0 : Int))
      (Machine.init ⟨0, 256⟩ (List.replicate 256 (1 : Int)) [])).failure = none ∧
    (assignPipe ⟨true, 64⟩ 256 (listPipe 8 0 (0 : Int))
      (Machine.init ⟨0, 256⟩ (List.replicate 256 (1 : Int)) [])).ops =
        PipeOp.length :: PipeOp.beginRead ::
          ((List.replicate 256 [PipeOp.deref, PipeOp.incr]).flatten ++ [PipeOp.endRead]) ∧
    (assignPipe ⟨true, 64⟩ 256 (listPipe 8 0 (0 : Int))
      (Machine.init ⟨0, 256⟩ (List.replicate 256 (1 : Int)) [])).writes =
        (List.range 256).map (fun k : Nat => (0 : Int) + (k : Int)) := by
  have hV : Range.ValidIn ⟨0, 256⟩ (List.replicate 256 (1 : Int)) :=
    ⟨le_refl _, by norm_num, by simp only [List.length_replicate]; norm_num⟩
  obtain ⟨store', hrun, -, -, -⟩ := assignPipe_run ⟨true, 64⟩ (listPipe 8 0 (0 : Int))
    ⟨0, 256⟩ (List.replicate 256 (1 : Int)) [] 256 256 hV (by decide) (by decide)
    (by decide)
  rw [hrun]
  exact ⟨by decide, rfl, rfl, rfl⟩

/-- C9, amended.  Under the checked policy, when the producer's declared
length differs from `length(V)` converted to the producer's size type, and so
whenever that type can represent `length(V)` and the two lengths differ,
`assign(V, P)` fails with the assertion failure of `resize` and fails
atomically: only the length query has been made on the producer, no slot has
been written, and view, store and producer state are as before the call. -/
theorem assign_length_mismatch_fails_atomically {σ α : Type} (cfg : Config) (P : Pipe σ α)
    (V : Range) (store : Store α) (s : σ) (fuel : Nat) (hdbg : cfg.enableDebug = true) :
    (P.length s ≠ P.sizeType.cast (length V) →
      assignPipe cfg fuel P (Machine.init V store s) =
        { dest := V, store := store, src := s, ops := [PipeOp.length], writes := [],
          failure := some .assertion }) ∧
    (P.sizeType.Holds (length V) → P.length s ≠ length V →
      assignPipe cfg fuel P (Machine.init V store s) =
        { dest := V, store := store, src := s, ops := [PipeOp.length], writes := [],
          failure := some .assertion }) := by
  have key : P.length s ≠ P.sizeType.cast (length V) →
      assignPipe cfg fuel P (Machine.init V store s) =
        { dest := V, store := store, src := s, ops := [PipeOp.length], writes := [],
          failure := some .assertion } := by
    intro hne
    simp only [assignPipe, Machine.init, resize, SEQAN_ASSERT_EQ_debug_ne cfg _ _ hdbg hne,
      List.nil_append]
  refine ⟨key, ?_⟩
  intro hty hne
  apply key
  rwa [IntType.cast_of_holds _ _ hty]

/-- C9 amended, at the view `[1, 4)` of length 3 and a producer with a 64-bit
size type that declares 2 elements. -/
theorem assign_length_mismatch_fails_atomically_witness :
    assignPipe ⟨true, 64⟩ 5 (listPipe 64 2 (0 : Int))
        (Machine.init ⟨1, 4⟩ [10, 20, 30, 40, 50] [7, 8]) =
      { dest := ⟨1, 4⟩, store := [10, 20, 30, 40, 50], src := [7, 8],
        ops := [PipeOp.length], writes := [], failure := some .assertion } :=
  (assign_length_mismatch_fails_atomically ⟨true, 64⟩ (listPipe 64 2 (0 : Int)) ⟨1, 4⟩
    [10, 20, 30, 40, 50] [7, 8] 5 rfl).2 (by decide) (by decide)

/-- C10, counterexample.  `toRange(5, 3)` stores the pair as given: its begin
is greater than its end and its length is -2. -/
theorem toRange_can_invert_begin_end :
    ¬ (begin (toRange 5 3) ≤ end_ (toRange 5 3)) ∧ length (toRange 5 3) = -2 ∧
    ¬ ((Range.ofIterators 5 3)._begin ≤ (Range.ofIterators 5 3)._end) := by
  decide

/-- C10, amended.  The empty view satisfies `begin <= end` and has length 0.  A
view constructed from a container, or rebound to one by `assign` or `operator=`,
holds exactly the begin and end that the container's accessors return, whatever
type is handed to these templates: it satisfies `begin <= end`, and has a
non-negative length, exactly when that pair does.  The constructors and `assign`
on an owning container, and the copy of a view, are these templates at that
type; with a view as the container the result is ordered exactly when that view
is.  A view built from an explicit iterator pair `(b, e)`, by the constructor or
by `toRange`, stores the pair unchecked: it satisfies `begin <= end` exactly
when `b <= e`, and its length is `e - b`. -/
theorem constructed_views_ordered {κ : Type} (acc : BeginEnd κ) (cont : κ) (V R : Range)
    (C : Container) (b e : Int) :
    (Range.empty._begin ≤ Range.empty._end ∧ length Range.empty = 0) ∧
    ((Range.ofAny acc cont)._begin = acc.begin cont ∧
      (Range.ofAny acc cont)._end = acc.end_ cont) ∧
    ((assignAny acc V cont)._begin = acc.begin cont ∧
      (assignAny acc V cont)._end = acc.end_ cont) ∧
    ((Range.ofAny acc cont)._begin ≤ (Range.ofAny acc cont)._end ↔
      acc.begin cont ≤ acc.end_ cont) ∧
    ((assignAny acc V cont)._begin ≤ (assignAny acc V cont)._end ↔
      acc.begin cont ≤ acc.end_ cont) ∧
    (0 ≤ length (Range.ofAny acc cont) ↔ acc.begin cont ≤ acc.end_ cont) ∧
    (0 ≤ length (assignAny acc V cont) ↔ acc.begin cont ≤ acc.end_ cont) ∧
    (Range.ofContainer C = Range.ofAny Container.accessors C ∧
      Range.ofContainerConst C = Range.ofAny Container.accessors C ∧
      assign V C = assignAny Container.accessors V C ∧
      V.opAssign C = assignAny Container.accessors V C ∧
      Range.copy R = Range.ofAny Range.accessors R) ∧
    ((Range.copy R)._begin ≤ (Range.copy R)._end ↔ R._begin ≤ R._end) ∧
    ((assignAny Range.accessors V R)._begin ≤ (assignAny Range.accessors V R)._end ↔
      R._begin ≤ R._end) ∧
    ((toRange b e)._begin ≤ (toRange b e)._end ↔ b ≤ e) ∧
    ((Range.ofIterators b e)._begin ≤ (Range.ofIterators b e)._end ↔ b ≤ e) ∧
    length (toRange b e) = e - b ∧
    (0 ≤ length (toRange b e) ↔ b ≤ e) := by
  refine ⟨⟨le_refl _, rfl⟩, ⟨rfl, rfl⟩, ⟨rfl, rfl⟩, Iff.rfl, Iff.rfl, ?_, ?_,
    ⟨rfl, rfl, rfl, rfl, rfl⟩, Iff.rfl, Iff.rfl, Iff.rfl, Iff.rfl, rfl, ?_⟩
  · simp only [length, Range.ofAny]; omega
  · simp only [length, assignAny]; omega
  · simp only [length, toRange, Range.ofIterators]; omega

/-- C10 amended, with the inverted view `toRange(5, 3)` handed to the templates
as the container: the copy and the rebound view are inverted too. -/
theorem constructed_views_ordered_witness :
    ¬ ((Range.copy (toRange 5 3))._begin ≤ (Range.copy (toRange 5 3))._end) ∧
    ¬ ((assignAny Range.accessors Range.empty (toRange 5 3))._begin ≤
        (assignAny Range.accessors Range.empty (toRange 5 3))._end) ∧
    ((Range.ofContainer ⟨2, 3⟩)._begin = 2 ∧ (Range.ofContainer ⟨2, 3⟩)._end = 5) :=
  have h := constructed_views_ordered Container.accessors ⟨2, 3⟩ Range.empty (toRange 5 3)
    ⟨2, 3⟩ 5 3
  ⟨fun hle => absurd (h.2.2.2.2.2.2.2.2.1.mp hle) (by decide),
    fun hle => absurd (h.2.2.2.2.2.2.2.2.2.1.mp hle) (by decide),
    h.2.2.2.2.2.2.2.1.1 ▸ h.2.1⟩

/-! ## Empty views, rebinding, sub-ranges, frame of the pull loop -/

/-- C11. The default-constructed view has `begin == end`.  For every view with
`begin == end`: its length is 0; the begin-to-end loop leaves the machine as it
found it, whatever the fuel, so no loop body runs; and populating it from a
producer of declared length 0 completes with the length query, the begin-read
and the end-read signal as the only operations on the producer, no pull and no
write, the store unchanged. -/
theorem empty_view_has_no_slots {σ α : Type} (cfg : Config) (P : Pipe σ α) (V : Range)
    (store : Store α) (s : σ) (fuel : Nat) (m : Machine σ α)
    (hV : V._begin = V._end) (hP : P.length s = 0) :
    Range.empty._begin = Range.empty._end ∧
    length V = 0 ∧
    assignLoop P fuel (begin V) (end_ V) m = m ∧
    assignPipe cfg fuel P (Machine.init V store s) =
      { dest := V, store := store, src := P.endRead (P.beginRead s),
        ops := [PipeOp.length, PipeOp.beginRead, PipeOp.endRead], writes := [],
        failure := none } := by
  have hlen : length V = 0 := by simp only [length]; omega
  have hloop : ∀ m' : Machine σ α, assignLoop P fuel (begin V) (end_ V) m' = m' := by
    intro m'
    have : begin V = end_ V := hV
    cases fuel <;> simp [assignLoop, this]
  have hcheck : SEQAN_ASSERT_EQ cfg (P.length s) (P.sizeType.cast (length V)) = .ok () := by
    apply SEQAN_ASSERT_EQ_refl
    rw [hlen, ← hP, IntType.cast_of_holds _ _ (P.length_holds s)]
  refine ⟨rfl, hlen, hloop m, ?_⟩
  simp only [assignPipe, Machine.init, resize, hcheck, List.nil_append, hloop,
    List.singleton_append, List.cons_append]

/-- C11 at the empty view `[2, 2)` over three elements, with no fuel at all. -/
theorem empty_view_has_no_slots_witness :
    Range.empty._begin = Range.empty._end ∧
    length ⟨2, 2⟩ = 0 ∧
    assignLoop (listPipe 64 0 (0 : Int)) 0 (begin ⟨2, 2⟩) (end_ ⟨2, 2⟩)
      (Machine.init ⟨2, 2⟩ [10, 20, 30] []) = Machine.init ⟨2, 2⟩ [10, 20, 30] [] ∧
    assignPipe ⟨true, 64⟩ 0 (listPipe 64 0 (0 : Int)) (Machine.init ⟨2, 2⟩ [10, 20, 30] []) =
      { dest := ⟨2, 2⟩, store := [10, 20, 30], src := [],
        ops := [PipeOp.length, PipeOp.beginRead, PipeOp.endRead], writes := [],
        failure := none } :=
  empty_view_has_no_slots ⟨true, 64⟩ (listPipe 64 0 (0 : Int)) ⟨2, 2⟩ [10, 20, 30] [] 0
    (Machine.init ⟨2, 2⟩ [10, 20, 30] []) (by decide) (by decide)

/-- C12. After `Range W(V); assign(V, C);` the view `V` is bound to `C`, the
copy `W` still has the begin and end that `V` had before the call, hence the
same length and, position by position, the same elements; and the store is the
one before the call: no element was altered or copied. -/
theorem rebinding_leaves_copy_and_storage {α : Type} (V : Range) (C : Container)
    (store : Store α) :
    (copyThenAssign V C store).V = Range.ofContainer C ∧
    (copyThenAssign V C store).W._begin = V._begin ∧
    (copyThenAssign V C store).W._end = V._end ∧
    length (copyThenAssign V C store).W = length V ∧
    (∀ pos : Int, Store.read (copyThenAssign V C store).store
        (value (copyThenAssign V C store).W pos) = Store.read store (value V pos)) ∧
    (copyThenAssign V C store).store = store :=
  ⟨rfl, rfl, rfl, rfl, fun _ => rfl, rfl⟩

/-- C13. For a container in the store and positions `b <= e <= size(C)`, the
view `toRange(begin(C) + b, begin(C) + e)` has length `e - b`, and for every
`i < e - b` reading `value(V, i)` yields the container's element `b + i`. -/
theorem subrange_view_observes_slice {α : Type} (s : Store α) (C : Container) (b e : Nat)
    (hC : C.ValidIn s) (hbe : b ≤ e) (he : e ≤ C.size) :
    length (toRange (C.begin + b) (C.begin + e)) = ((e - b : Nat) : Int) ∧
    ∀ i : Nat, i < e - b →
      ∃ x, (C.elems s)[b + i]? = some x ∧
        Store.read s (value (toRange (C.begin + b) (C.begin + e)) i) = .ok x := by
  obtain ⟨h0, h1⟩ := hC
  refine ⟨by simp only [length, toRange, Range.ofIterators]; omega, ?_⟩
  intro i hi
  have hlt : C.data_begin.toNat + (b + i) < s.length := by omega
  refine ⟨s[C.data_begin.toNat + (b + i)], ?_, ?_⟩
  · rw [Container.elems_getElem? C s (b + i) (by omega), List.getElem?_eq_getElem hlt]
  · have : value (toRange (C.begin + b) (C.begin + e)) (i : Int)
        = ((C.data_begin.toNat + (b + i) : Nat) : Int) := by
      simp only [value, toRange, Range.ofIterators, Container.begin]; omega
    rw [this]
    exact Store.read_ofNat s _ _ (List.getElem?_eq_getElem hlt)

/-- C13 at the slice `[1, 4)` of the container `[10, 20, 30, 40, 50]`. -/
theorem subrange_view_observes_slice_witness :
    length (toRange (Container.begin ⟨0, 5⟩ + ((1 : Nat) : Int))
      (Container.begin ⟨0, 5⟩ + ((4 : Nat) : Int))) = ((4 - 1 : Nat) : Int) ∧
    ∀ i : Nat, i < 4 - 1 →
      ∃ x, (Container.elems ⟨0, 5⟩ ([10, 20, 30, 40, 50] : Store Int))[1 + i]? = some x ∧
        Store.read ([10, 20, 30, 40, 50] : Store Int)
          (value (toRange (Container.begin ⟨0, 5⟩ + ((1 : Nat) : Int))
            (Container.begin ⟨0, 5⟩ + ((4 : Nat) : Int))) i) = .ok x :=
  subrange_view_observes_slice ([10, 20, 30, 40, 50] : Store Int) ⟨0, 5⟩ 1 4
    (by decide) (by decide) (by decide)

/-- C14. For all iterators `b` and `e`, `begin(toRange(b, e))` is `b` and
`end(toRange(b, e))` is `e`, for the overloads on a mutable and on an immutable
view alike, which therefore agree; `toRange` is the iterator-pair constructor. -/
theorem toRange_roundtrip (b e : Int) :
    begin (toRange b e) = b ∧ end_ (toRange b e) = e ∧
    beginConst (toRange b e) = b ∧ endConst (toRange b e) = e ∧
    begin (toRange b e) = beginConst (toRange b e) ∧
    end_ (toRange b e) = endConst (toRange b e) ∧
    toRange b e = Range.ofIterators b e :=
  ⟨rfl, rfl, rfl, rfl, rfl, rfl, rfl⟩

/-- C15. For a view inside the store and `pos` in `[0, length(V))`, the mutable
`V[pos]` is the reference `value(V, pos)` to position `begin + pos`; reading it,
the immutable `V[pos]` (through `getValue`, under either policy) and reading
`value(V, pos)` of either overload all yield the one element stored at
`begin + pos`. -/
theorem index_overloads_agree {α : Type} (cfg : Config) (s : Store α) (V : Range)
    (pos : Int) (hV : V.ValidIn s) (h0 : 0 ≤ pos) (h1 : pos < length V) :
    V.index pos = V._begin + pos ∧
    V.index pos = value V pos ∧
    ∃ x, s[(V._begin + pos).toNat]? = some x ∧
      Store.read s (V.index pos) = .ok x ∧
      V.indexConst cfg s pos = .ok x ∧
      Store.read s (value V pos) = .ok x ∧
      Store.read s (valueConst V pos) = .ok x := by
  have hconst := Range.indexConst_in_range cfg s V pos h0 h1
  obtain ⟨hb, hle, he⟩ := hV
  simp only [length] at h1
  have hlt : (V._begin + pos).toNat < s.length := by omega
  have hget : s[(V._begin + pos).toNat]? = some s[(V._begin + pos).toNat] :=
    List.getElem?_eq_getElem hlt
  have hr := Store.read_of_getElem? s (V._begin + pos) _ (by omega) hget
  exact ⟨rfl, rfl, _, hget, hr, by rw [hconst]; exact hr, hr, hr⟩

/-- C15 at the view `[1, 4)` over `[10, 20, 30, 40, 50]` and position 2, under
the checked policy. -/
theorem index_overloads_agree_witness :
    Store.read ([10, 20, 30, 40, 50] : Store Int) (Range.index ⟨1, 4⟩ 2) = .ok 40 ∧
    Range.indexConst ⟨true, 64⟩ ([10, 20, 30, 40, 50] : Store Int) ⟨1, 4⟩ 2 = .ok 40 := by
  obtain ⟨-, -, x, hx, h1, h2, -, -⟩ := index_overloads_agree ⟨true, 64⟩
    ([10, 20, 30, 40, 50] : Store Int) ⟨1, 4⟩ 2 (by decide) (by decide) (by decide)
  have hx40 : x = 40 := by
    have : ([10, 20, 30, 40, 50] : List Int)[3]? = some x := hx
    simpa using this.symm
  subst hx40
  exact ⟨h1, h2⟩

/-- Whatever the fuel and however the loop ends, the pull loop over `[cur, e)`
keeps the destination view, the size of the store and every position outside
`[cur, e)`, and writes only slots of `[cur, e)`. -/
theorem assignLoop_frame {σ α : Type} (src : Pipe σ α) :
    ∀ (fuel : Nat) (cur e : Int) (m : Machine σ α), cur ≤ e →
      (assignLoop src fuel cur e m).dest = m.dest ∧
      (assignLoop src fuel cur e m).store.length = m.store.length ∧
      (∀ q : Int, q < cur ∨ e ≤ q →
        Store.read (assignLoop src fuel cur e m).store q = Store.read m.store q) ∧
      ∃ ws : List Int, (assignLoop src fuel cur e m).writes = m.writes ++ ws ∧
        ∀ w ∈ ws, cur ≤ w ∧ w < e := by
  intro fuel
  induction fuel with
  | zero =>
    intro cur e m _
    by_cases hce : cur = e
    · have heq : assignLoop src 0 cur e m = m := by simp only [assignLoop, if_pos hce]
      rw [heq]
      exact ⟨rfl, rfl, fun _ _ => rfl, [], by simp, by simp⟩
    · have heq : assignLoop src 0 cur e m = { m with failure := some .fuel } := by
        simp only [assignLoop, if_neg hce]
      rw [heq]
      exact ⟨rfl, rfl, fun _ _ => rfl, [], by simp, by simp⟩
  | succ fuel ih =>
    intro cur e m hle
    by_cases hce : cur = e
    · have heq : assignLoop src (fuel + 1) cur e m = m := by
        simp only [assignLoop, if_pos hce]
      rw [heq]
      exact ⟨rfl, rfl, fun _ _ => rfl, [], by simp, by simp⟩
    · by_cases hin : 0 ≤ cur ∧ cur < (m.store.length : Int)
      · have hw := Store.write_ok m.store cur (src.deref m.src) hin.1 hin.2
        have heq : assignLoop src (fuel + 1) cur e m = assignLoop src fuel (cur + 1) e
            { m with store := m.store.set cur.toNat (src.deref m.src), src := src.incr m.src,
                     ops := m.ops ++ [PipeOp.deref, PipeOp.incr],
                     writes := m.writes ++ [cur] } := by
          simp only [assignLoop, if_neg hce, hw]
        obtain ⟨hd, hl, hf, ws, hws, hmem⟩ := ih (cur + 1) e
          { m with store := m.store.set cur.toNat (src.deref m.src), src := src.incr m.src,
                   ops := m.ops ++ [PipeOp.deref, PipeOp.incr], writes := m.writes ++ [cur] }
          (by omega)
        rw [heq]
        refine ⟨hd, ?_, ?_, cur :: ws, ?_, ?_⟩
        · rw [hl]; simp only [List.length_set]
        · intro q hq
          rw [hf q (by omega)]
          apply Store.read_set_ne
          omega
        · rw [hws]; simp
        · intro w hw'
          rcases List.mem_cons.mp hw' with h | h
          · omega
          · have := hmem w h; omega
      · have hw : Store.write m.store cur (src.deref m.src) = .error .undefined := by
          unfold Store.write; rw [if_neg hin]
        have heq : assignLoop src (fuel + 1) cur e m =
            { m with ops := m.ops ++ [PipeOp.deref], failure := some .undefined } := by
          simp only [assignLoop, if_neg hce, hw]
        rw [heq]
        exact ⟨rfl, rfl, fun _ _ => rfl, [], by simp, by simp⟩

/-- C16. For every view with `begin <= end`, every producer, either policy and
any fuel, `assign(V, P)` hands back the same view (same begin, end and length),
keeps the size of the store and every element at a position outside
`[begin, end)`, and writes only slots of `[begin, end)`.  When moreover the view
lies in the store, the `resize` check passes and there is fuel for every slot,
the run completes and the slots written are exactly those of the view, in order. -/
theorem assign_from_producer_frame {σ α : Type} (cfg : Config) (P : Pipe σ α) (V : Range)
    (store : Store α) (s : σ) (fuel : Nat) (hle : V._begin ≤ V._end) :
    (assignPipe cfg fuel P (Machine.init V store s)).dest = V ∧
    length (assignPipe cfg fuel P (Machine.init V store s)).dest = length V ∧
    (assignPipe cfg fuel P (Machine.init V store s)).store.length = store.length ∧
    (∀ q : Int, q < V._begin ∨ V._end ≤ q →
      Store.read (assignPipe cfg fuel P (Machine.init V store s)).store q
        = Store.read store q) ∧
    (∀ w ∈ (assignPipe cfg fuel P (Machine.init V store s)).writes,
      V._begin ≤ w ∧ w < V._end) ∧
    (V.ValidIn store → (length V).toNat ≤ fuel →
      SEQAN_ASSERT_EQ cfg (P.length s) (P.sizeType.cast (length V)) = .ok () →
      (assignPipe cfg fuel P (Machine.init V store s)).failure = none ∧
      (assignPipe cfg fuel P (Machine.init V store s)).writes =
        (List.range (length V).toNat).map (fun k : Nat => V._begin + (k : Int))) := by
  have hframe : (assignPipe cfg fuel P (Machine.init V store s)).dest = V ∧
      (assignPipe cfg fuel P (Machine.init V store s)).store.length = store.length ∧
      (∀ q : Int, q < V._begin ∨ V._end ≤ q →
        Store.read (assignPipe cfg fuel P (Machine.init V store s)).store q
          = Store.read store q) ∧
      (∀ w ∈ (assignPipe cfg fuel P (Machine.init V store s)).writes,
        V._begin ≤ w ∧ w < V._end) := by
    cases hc : SEQAN_ASSERT_EQ cfg (P.length s) (P.sizeType.cast (length V)) with
    | error f =>
      have heq : assignPipe cfg fuel P (Machine.init V store s) =
          { dest := V, store := store, src := s, ops := [PipeOp.length], writes := [],
            failure := some f } := by
        simp only [assignPipe, Machine.init, resize, hc, List.nil_append]
      rw [heq]
      exact ⟨rfl, rfl, fun _ _ => rfl, by simp⟩
    | ok u =>
      obtain ⟨hd, hl, hf, ws, hws, hmem⟩ := assignLoop_frame P fuel V._begin V._end
        { dest := V, store := store, src := P.beginRead s,
          ops := [PipeOp.length, PipeOp.beginRead], writes := [], failure := none } hle
      simp only [List.nil_append] at hws
      have hmem2 : ∀ w ∈ (assignLoop P fuel V._begin V._end
          { dest := V, store := store, src := P.beginRead s,
            ops := [PipeOp.length, PipeOp.beginRead], writes := [],
            failure := none }).writes, V._begin ≤ w ∧ w < V._end := by
        rw [hws]; exact hmem
      have heq : assignPipe cfg fuel P (Machine.init V store s) =
          match (assignLoop P fuel V._begin V._end
            { dest := V, store := store, src := P.beginRead s,
              ops := [PipeOp.length, PipeOp.beginRead], writes := [],
              failure := none }).failure with
          | some _ => assignLoop P fuel V._begin V._end
              { dest := V, store := store, src := P.beginRead s,
                ops := [PipeOp.length, PipeOp.beginRead], writes := [], failure := none }
          | none =>
            { assignLoop P fuel V._begin V._end
                { dest := V, store := store, src := P.beginRead s,
                  ops := [PipeOp.length, PipeOp.beginRead], writes := [], failure := none }
              with
              src := P.endRead (assignLoop P fuel V._begin V._end
                { dest := V, store := store, src := P.beginRead s,
                  ops := [PipeOp.length, PipeOp.beginRead], writes := [],
                  failure := none }).src
              ops := (assignLoop P fuel V._begin V._end
                { dest := V, store := store, src := P.beginRead s,
                  ops := [PipeOp.length, PipeOp.beginRead], writes := [],
                  failure := none }).ops ++ [PipeOp.endRead] } := by
        simp only [assignPipe, Machine.init, resize, hc, List.nil_append, begin, end_,
          List.singleton_append]
      rw [heq]
      split
      · exact ⟨hd, hl, hf, hmem2⟩
      · exact ⟨hd, hl, hf, hmem2⟩
  obtain ⟨h1, h2, h3, h4⟩ := hframe
  refine ⟨h1, by rw [h1], h2, h3, h4, ?_⟩
  intro hV hfuel hcheck
  have hn : length V = (((length V).toNat : Nat) : Int) := by
    simp only [length]; omega
  obtain ⟨store', hrun, -, -, -⟩ :=
    assignPipe_run cfg P V store s (length V).toNat fuel hV hn hfuel hcheck
  rw [hrun]
  exact ⟨rfl, rfl⟩

/-- C16 at the view `[1, 4)` over five elements and the producer of 7, 8, 9:
positions 0 and 4 keep their elements and the slots 1, 2, 3 are written. -/
theorem assign_from_producer_frame_witness :
    (assignPipe ⟨true, 64⟩ 3 (listPipe 64 3 (0 : Int))
      (Machine.init ⟨1, 4⟩ [10, 20, 30, 40, 50] [7, 8, 9])).dest = ⟨1, 4⟩ ∧
    Store.read (assignPipe ⟨true, 64⟩ 3 (listPipe 64 3 (0 : Int))
      (Machine.init ⟨1, 4⟩ [10, 20, 30, 40, 50] [7, 8, 9])).store 0
        = Store.read ([10, 20, 30, 40, 50] : Store Int) 0 ∧
    Store.read (assignPipe ⟨true, 64⟩ 3 (listPipe 64 3 (0 : Int))
      (Machine.init ⟨1, 4⟩ [10, 20, 30, 40, 50] [7, 8, 9])).store 4
        = Store.read ([10, 20, 30, 40, 50] : Store Int) 4 ∧
    (assignPipe ⟨true, 64⟩ 3 (listPipe 64 3 (0 : Int))
      (Machine.init ⟨1, 4⟩ [10, 20, 30, 40, 50] [7, 8, 9])).failure = none ∧
    (assignPipe ⟨true, 64⟩ 3 (listPipe 64 3 (0 : Int))
      (Machine.init ⟨1, 4⟩ [10, 20, 30, 40, 50] [7, 8, 9])).writes = [1, 2, 3] :=
  have h := assign_from_producer_frame ⟨true, 64⟩ (listPipe 64 3 (0 : Int)) ⟨1, 4⟩
    [10, 20, 30, 40, 50] [7, 8, 9] 3 (by decide)
  have h6 := h.2.2.2.2.2 (by decide) (by decide) (by decide)
  ⟨h.1, h.2.2.2.1 0 (by decide), h.2.2.2.1 4 (by decide), h6.1, h6.2⟩

/-- C17. In a build without debug checks, for every view inside the store
(`begin <= end`) and every producer, whatever length it declares, `assign(V, P)`
with fuel for `length(V)` slots completes; its operations on the producer are the
length query, begin-read, `length(V)` pulls (dereference, increment), end-read,
so exactly `length(V)` dereferences and `length(V)` increments; it writes exactly
the `length(V)` slots of the view, in order, and slot `k` then holds the `k`-th
element pulled. -/
theorem release_pull_loop_driven_by_view {σ α : Type} (cfg : Config) (P : Pipe σ α)
    (V : Range) (store : Store α) (s : σ) (n fuel : Nat)
    (hrel : cfg.enableDebug = false) (hV : V.ValidIn store) (hn : length V = n)
    (hfuel : n ≤ fuel) :
    (assignPipe cfg fuel P (Machine.init V store s)).failure = none ∧
    (assignPipe cfg fuel P (Machine.init V store s)).ops =
      PipeOp.length :: PipeOp.beginRead ::
        ((List.replicate n [PipeOp.deref, PipeOp.incr]).flatten ++ [PipeOp.endRead]) ∧
    ((assignPipe cfg fuel P (Machine.init V store s)).ops.count PipeOp.deref = n ∧
      (assignPipe cfg fuel P (Machine.init V store s)).ops.count PipeOp.incr = n) ∧
    (assignPipe cfg fuel P (Machine.init V store s)).writes =
      (List.range n).map (fun k : Nat => V._begin + (k : Int)) ∧
    (assignPipe cfg fuel P (Machine.init V store s)).writes.length = n ∧
    (assignPipe cfg fuel P (Machine.init V store s)).src =
      P.endRead (P.incr^[n] (P.beginRead s)) ∧
    ∀ k : Nat, k < n →
      Store.read (assignPipe cfg fuel P (Machine.init V store s)).store (value V k)
        = .ok (P.produced s k) := by
  obtain ⟨store', hrun, -, hread, -⟩ := assignPipe_run cfg P V store s n fuel hV hn hfuel
    (SEQAN_ASSERT_EQ_release cfg _ _ hrel)
  rw [hrun]
  have hcount : ∀ k : Nat,
      ((List.replicate k [PipeOp.deref, PipeOp.incr]).flatten).count PipeOp.deref = k ∧
      ((List.replicate k [PipeOp.deref, PipeOp.incr]).flatten).count PipeOp.incr = k := by
    intro k
    induction k with
    | zero => simp
    | succ k ih =>
      rw [List.replicate_succ, List.flatten_cons, List.count_append, List.count_append,
        ih.1, ih.2]
      constructor
      · have : List.count PipeOp.deref [PipeOp.deref, PipeOp.incr] = 1 := by decide
        omega
      · have : List.count PipeOp.incr [PipeOp.deref, PipeOp.incr] = 1 := by decide
        omega
  refine ⟨rfl, rfl, ⟨?_, ?_⟩, rfl, by simp, rfl, fun k hk => hread k hk⟩
  · simp only
    rw [List.count_cons_of_ne (by decide), List.count_cons_of_ne (by decide),
      List.count_append, (hcount n).1]
    have : List.count PipeOp.deref [PipeOp.endRead] = 0 := by decide
    omega
  · simp only
    rw [List.count_cons_of_ne (by decide), List.count_cons_of_ne (by decide),
      List.count_append, (hcount n).2]
    have : List.count PipeOp.incr [PipeOp.endRead] = 0 := by decide
    omega


/-- C17 at the view `[1, 4)` of three slots and a producer that declares one
element: three pulls are made and the three slots written. -/
theorem release_pull_loop_driven_by_view_witness :
    (assignPipe ⟨false, 64⟩ 3 (listPipe 64 1 (0 : Int))
      (Machine.init ⟨1, 4⟩ [10, 20, 30, 40, 50] [7])).ops =
      [PipeOp.length, PipeOp.beginRead, PipeOp.deref, PipeOp.incr, PipeOp.deref, PipeOp.incr,
        PipeOp.deref, PipeOp.incr, PipeOp.endRead] ∧
    (assignPipe ⟨false, 64⟩ 3 (listPipe 64 1 (0 : Int))
      (Machine.init ⟨1, 4⟩ [10, 20, 30, 40, 50] [7])).writes = [1, 2, 3] :=
  have h := release_pull_loop_driven_by_view ⟨false, 64⟩ (listPipe 64 1 (0 : Int)) ⟨1, 4⟩
    [10, 20, 30, 40, 50] [7] 3 3 rfl (by decide) (by decide) (by decide)
  ⟨h.2.1, h.2.2.2.1⟩

end Seqan
